import Mathlib

/-!
Verification of the pdlfs/indexfs repository core claims.

Shallow embedding of parts of the pdlfs-common code base:
status codes, the directory partition index (DPI), the socket RPC
client, option sanitization, the read-only LevelDB open path, the
lookup-lease protocol, the ectrie sign-interleave codec and the
min-max buffered writable file.
-/

namespace Pdlfs

/-- Status error kinds, following include/pdlfs-common/status.h as used
throughout the sources (OK, NotFound, Corruption, IOError, BufferFull,
Disconnected, InvalidArgument, NotSupported, AssertionFailed). Each
error carries a context string as in the C++ constructors. -/
inductive Status where
  | ok
  | notFound (ctx : String)
  | corruption (ctx : String)
  | ioError (ctx : String)
  | bufferFull (ctx : String)
  | disconnected (ctx : String)
  | invalidArgument (ctx : String)
  | notSupported (ctx : String)
  | assertionFailed (ctx : String)
  deriving DecidableEq, Repr

/-- Status::ok() of the C++ code: true exactly on the OK status. -/
def Status.isOK : Status → Bool
  | .ok => true
  | _ => false

/-! ## Directory partition index (C1, C2)

The DirIndex class is declared in include/pdlfs-common/rpc.h
(DirIndexOptions, DirIndex with Update, IsSplittable,
NewIndexForSplitting); its implementation file is not part of the
sources, so the operations are modelled from the spec. -/

/-- DirIndexOptions from include/pdlfs-common/rpc.h: the number of
physical servers, the number of virtual servers, and paranoid checks. -/
structure DirIndexOptions where
  numServers : Nat
  numVirtualServers : Nat
  paranoidChecks : Bool
  deriving DecidableEq, Repr

/-- A directory partition index: the zeroth server of the directory and
the bitmap of live partitions, one bit per virtual server. The bitmap
is a list of booleans of length numVirtualServers. -/
structure DirIndex where
  zerothServer : Nat
  options : DirIndexOptions
  bitmap : List Bool
  deriving DecidableEq, Repr

/-- Modelled from the spec: two DPIs for the same directory are merged
by bitwise OR of their bitmaps (DirIndex::Update). -/
def mergeBitmap (a b : List Bool) : List Bool :=
  List.zipWith (fun x y => x || y) a b

/-- Modelled from the spec: DirIndex::Update merges another index of the
same directory into this one by bitwise OR of the two bitmaps; the
remaining fields describe the directory itself and are unchanged. -/
def DirIndex.update (a b : DirIndex) : DirIndex :=
  { a with bitmap := mergeBitmap a.bitmap b.bitmap }

/-- Modelled from the spec: a partition i is splittable iff 2*i+1 < V,
i.e. the child still fits in the bitmap (DirIndex::IsSplittable). -/
def DirIndex.isSplittable (d : DirIndex) (i : Nat) : Bool :=
  decide (2 * i + 1 < d.options.numVirtualServers)

/-- Modelled from the spec: the child partition produced by splitting
partition i has index 2*i+1 (DirIndex::NewIndexForSplitting). -/
def DirIndex.newIndexForSplitting (d : DirIndex) (i : Nat) : Nat :=
  2 * i + 1

theorem mergeBitmap_comm (a b : List Bool) : mergeBitmap a b = mergeBitmap b a := by
  induction a generalizing b with
  | nil => cases b <;> rfl
  | cons x xs ih =>
    cases b with
    | nil => rfl
    | cons y ys =>
      show (x || y) :: mergeBitmap xs ys = (y || x) :: mergeBitmap ys xs
      rw [Bool.or_comm, ih ys]

theorem mergeBitmap_assoc (a b c : List Bool) :
    mergeBitmap a (mergeBitmap b c) = mergeBitmap (mergeBitmap a b) c := by
  induction a generalizing b c with
  | nil => rfl
  | cons x xs ih =>
    cases b with
    | nil => rfl
    | cons y ys =>
      cases c with
      | nil => rfl
      | cons z zs =>
        show (x || (y || z)) :: mergeBitmap xs (mergeBitmap ys zs)
            = ((x || y) || z) :: mergeBitmap (mergeBitmap xs ys) zs
        rw [Bool.or_assoc, ih ys zs]

theorem mergeBitmap_self (a : List Bool) : mergeBitmap a a = a := by
  induction a with
  | nil => rfl
  | cons x xs ih =>
    show (x || x) :: mergeBitmap xs xs = x :: xs
    rw [Bool.or_self, ih]

/-- C1: for every two directory partition indexes A and B of the same
directory (same zeroth server and options), the merge operation
(DirIndex::Update) combines them by bitwise OR of their bitmaps and is a
semilattice: merge(A,B)=merge(B,A), merge(A,merge(B,C))=merge(merge(A,B),C)
for every C, and merge(A,A)=A. -/
theorem dirIndex_update_semilattice (A B C : DirIndex)
    (hz : A.zerothServer = B.zerothServer) (ho : A.options = B.options) :
    A.update B = B.update A ∧
    A.update (B.update C) = (A.update B).update C ∧
    A.update A = A := by
  refine ⟨?_, ?_, ?_⟩
  · cases A with
    | mk za oa ba =>
      cases B with
      | mk zb ob bb =>
        simp only [DirIndex.update, DirIndex.mk.injEq] at *
        exact ⟨hz, ho, mergeBitmap_comm _ _⟩
  · cases A; cases B; cases C
    simp [DirIndex.update, mergeBitmap_assoc]
  · cases A
    simp [DirIndex.update, mergeBitmap_self]

/-- Witness for C1 at concrete indexes of one directory. -/
theorem dirIndex_update_semilattice_witness :
    let o : DirIndexOptions := ⟨2, 4, false⟩
    let A : DirIndex := ⟨0, o, [true, false, true, false]⟩
    let B : DirIndex := ⟨0, o, [true, true, false, false]⟩
    let C : DirIndex := ⟨0, o, [true, false, false, true]⟩
    A.update B = B.update A ∧
    A.update (B.update C) = (A.update B).update C ∧
    A.update A = A :=
  dirIndex_update_semilattice _ _ _ rfl rfl

/-- C2: for every partition index i of a directory index with V virtual
servers, IsSplittable(i) returns true if and only if 2*i+1 < V, and the
child partition allocated for splitting i (NewIndexForSplitting) has
index 2*i+1. -/
theorem dirIndex_isSplittable_spec (d : DirIndex) (i : Nat) :
    (d.isSplittable i = true ↔ 2 * i + 1 < d.options.numVirtualServers) ∧
    d.newIndexForSplitting i = 2 * i + 1 ∧
    (d.isSplittable i = true → d.newIndexForSplitting i < d.options.numVirtualServers) := by
  refine ⟨?_, rfl, ?_⟩
  · simp [DirIndex.isSplittable]
  · intro h
    simp [DirIndex.isSplittable] at h
    simpa [DirIndex.newIndexForSplitting] using h

/-! ## Socket RPC (C3, C4)

Embedding of RPCOptions, SocketRPC::ThreadedLooper and
SocketRPC::Client from src/unnamed/part_003 (rpc.cc). -/

/-- rpc::Engine from include/pdlfs-common/rpc.h. -/
inductive RPCEngine where
  | socketRPC
  | mercuryRPC
  | margoRPC
  deriving DecidableEq, Repr

/-- rpc::Mode from include/pdlfs-common/rpc.h. -/
inductive RPCMode where
  | serverClient
  | clientOnly
  deriving DecidableEq, Repr

/-- RPCOptions from include/pdlfs-common/rpc.h, restricted to the scalar
fields (the pointer fields env, info_log, fs, extra_workers are elided). -/
structure RPCOptions where
  impl : RPCEngine
  mode : RPCMode
  rpcTimeout : Nat
  numRpcThreads : Nat
  addrCacheSize : Nat
  udpMaxUnexpectedMsgsz : Nat
  udpMaxExpectedMsgsz : Nat
  udpSrvRcvbuf : Int
  udpSrvSndbuf : Int
  deriving DecidableEq, Repr

/-- RPCOptions::RPCOptions() from rpc.cc: the constructor initializes
impl, mode, rpc_timeout, num_rpc_threads, addr_cache_size (and the
pointer fields). It does not initialize udp_max_unexpected_msgsz,
udp_max_expected_msgsz, udp_srv_rcvbuf or udp_srv_sndbuf, so those four
fields hold indeterminate values, modelled here as parameters. -/
def RPCOptions.default (udpUnexpected udpExpected : Nat) (rcvbuf sndbuf : Int) : RPCOptions :=
  { impl := .socketRPC
    mode := .serverClient
    rpcTimeout := 5000000
    numRpcThreads := 1
    addrCacheSize := 128
    udpMaxUnexpectedMsgsz := udpUnexpected
    udpMaxExpectedMsgsz := udpExpected
    udpSrvRcvbuf := rcvbuf
    udpSrvSndbuf := sndbuf }

/-- Socket types: both SocketRPC::Start and SocketRPC::Client open their
socket with socket(PF_INET, SOCK_DGRAM, 0). -/
inductive SockType where
  | dgram
  | stream
  deriving DecidableEq, Repr

/-- The socket type used by the server side of the socket RPC engine
(rpc.cc SocketRPC::Start). -/
def socketRpcServerSockType (o : RPCOptions) : SockType := .dgram

/-- The socket type used by a socket RPC client stub
(rpc.cc SocketRPC::Client::OpenAndConnect). -/
def socketRpcClientSockType (o : RPCOptions) : SockType := .dgram

/-- SocketRPC::ThreadedLooper::ThreadedLooper from rpc.cc: the maximum
message size of the server progressing threads is initialized as
max_msgsz_(1432), independently of the options. -/
def looperMaxMsgsz (o : RPCOptions) : Nat := 1432

/-- SocketRPC::Client::Client from rpc.cc: the maximum reply size of a
client stub is initialized as max_msgsz_(1432), independently of the
options. -/
def clientMaxMsgsz (o : RPCOptions) : Nat := 1432

/-- State of a SocketRPC::Client stub: the cached status and the
configured timeout (rpc_timeout_, copied from the options). -/
structure SocketClient where
  status : Status
  rpcTimeout : Nat
  deriving DecidableEq, Repr

/-- One iteration of the receive loop of SocketRPC::Client::Call is
driven by the environment: recv may return data (nret > 0), zero, fail
with EWOULDBLOCK (after which poll runs and the clock is read), or fail
with another error (nret == -1). -/
inductive RecvEvent where
  | msg (n : Nat)
  | empty
  | wouldBlock (pollErr : Bool) (now : Nat)
  | fail
  deriving DecidableEq, Repr

/-- The receive loop of SocketRPC::Client::Call from rpc.cc, one case per
branch of the C++ loop body. Breaking out of the loop yields the client
state whose status the call returns; an exhausted event list means the
call is still waiting (the real loop blocks), modelled as none. -/
def SocketClient.callLoop (c : SocketClient) (start : Nat) : List RecvEvent → Option SocketClient
  | [] => none
  | e :: es =>
    match e with
    | .msg _ => some c
    | .empty => some c
    | .fail => some { c with status := .ioError "recv or poll" }
    | .wouldBlock pollErr now =>
      if pollErr then some { c with status := .ioError "recv or poll" }
      else if c.rpcTimeout ≤ now - start then some { c with status := .disconnected "timeout" }
      else c.callLoop start es

/-- SocketRPC::Client::Call from rpc.cc. Returns whether a request was
sent, and, when the call returns, its status together with the post
state of the stub. A non-OK cached status is returned immediately with
no send; a failed send stores an IO error; otherwise the receive loop
runs. -/
def SocketClient.call (c : SocketClient) (sendOk : Bool) (start : Nat)
    (events : List RecvEvent) : Bool × Option (Status × SocketClient) :=
  if c.status ≠ .ok then (false, some (c.status, c))
  else if sendOk = false then
    (true, some (Status.ioError "send", { c with status := .ioError "send" }))
  else
    (true, (c.callLoop start events).map (fun c1 => (c1.status, c1)))

/-- A clean wait event: recv kept returning EWOULDBLOCK and poll kept
succeeding, so neither data nor an error arrived. -/
def RecvEvent.isCleanWait : RecvEvent → Bool
  | .wouldBlock pollErr _ => !pollErr
  | _ => false

/-- The clock value attached to a wait event. -/
def RecvEvent.time : RecvEvent → Nat
  | .wouldBlock _ now => now
  | _ => 0

theorem callLoop_clean_timeout (c : SocketClient) (start : Nat) (es : List RecvEvent)
    (hclean : ∀ e ∈ es, e.isCleanWait = true)
    (hto : ∃ e ∈ es, c.rpcTimeout ≤ e.time - start) :
    c.callLoop start es = some { c with status := .disconnected "timeout" } := by
  induction es with
  | nil => simp at hto
  | cons e es ih =>
    have hce : e.isCleanWait = true := hclean e (by simp)
    cases e with
    | msg n => simp [RecvEvent.isCleanWait] at hce
    | empty => simp [RecvEvent.isCleanWait] at hce
    | fail => simp [RecvEvent.isCleanWait] at hce
    | wouldBlock pollErr now =>
      simp [RecvEvent.isCleanWait] at hce
      subst hce
      by_cases hnow : c.rpcTimeout ≤ now - start
      · simp [SocketClient.callLoop, hnow]
      · rw [show SocketClient.callLoop c start (RecvEvent.wouldBlock false now :: es)
            = c.callLoop start es by simp [SocketClient.callLoop, hnow]]
        apply ih
        · intro x hx; exact hclean x (by simp [hx])
        · rcases hto with ⟨x, hx, hxt⟩
          rcases List.mem_cons.mp hx with h1 | h1
          · subst h1; simp [RecvEvent.time] at hxt; exact absurd hxt hnow
          · exact ⟨x, h1, hxt⟩

theorem callLoop_status_eq (c : SocketClient) (start : Nat) (es : List RecvEvent)
    (hok : c.status = .ok) (c1 : SocketClient) (h : c.callLoop start es = some c1) :
    c1.status = .ok ∨
      c1.status = .ioError "recv or poll" ∨ c1.status = .disconnected "timeout" := by
  induction es generalizing c with
  | nil => simp [SocketClient.callLoop] at h
  | cons e es ih =>
    cases e with
    | msg n =>
      simp [SocketClient.callLoop] at h
      subst h; exact Or.inl hok
    | empty =>
      simp [SocketClient.callLoop] at h
      subst h; exact Or.inl hok
    | fail =>
      simp [SocketClient.callLoop] at h
      subst h; exact Or.inr (Or.inl rfl)
    | wouldBlock pollErr now =>
      by_cases hp : pollErr = true
      · subst hp
        simp [SocketClient.callLoop] at h
        rw [← h]; exact Or.inr (Or.inl rfl)
      · rw [Bool.not_eq_true] at hp
        subst hp
        by_cases hnow : c.rpcTimeout ≤ now - start
        · simp [SocketClient.callLoop, hnow] at h
          rw [← h]; exact Or.inr (Or.inr rfl)
        · rw [show SocketClient.callLoop c start (RecvEvent.wouldBlock false now :: es)
              = c.callLoop start es by simp [SocketClient.callLoop, hnow]] at h
          exact ih c hok h

theorem callLoop_returns_post_status (c : SocketClient) (start : Nat)
    (es : List RecvEvent) (c1 : SocketClient) (h : c.callLoop start es = some c1) :
    c1.rpcTimeout = c.rpcTimeout := by
  induction es generalizing c with
  | nil => simp [SocketClient.callLoop] at h
  | cons e es ih =>
    cases e with
    | msg n => simp [SocketClient.callLoop] at h; subst h; rfl
    | empty => simp [SocketClient.callLoop] at h; subst h; rfl
    | fail => simp [SocketClient.callLoop] at h; subst h; rfl
    | wouldBlock pollErr now =>
      by_cases hp : pollErr = true
      · subst hp
        simp [SocketClient.callLoop] at h
        rw [← h]
      · rw [Bool.not_eq_true] at hp
        subst hp
        by_cases hnow : c.rpcTimeout ≤ now - start
        · simp [SocketClient.callLoop, hnow] at h
          rw [← h]
        · rw [show SocketClient.callLoop c start (RecvEvent.wouldBlock false now :: es)
              = c.callLoop start es by simp [SocketClient.callLoop, hnow]] at h
          exact ih c h

/-- C3: the default rpc_timeout is 5000000 microseconds; a Call during
which every receive attempt is a clean wait and the clock passes the
timeout returns the Disconnected status, which is also stored in the
stub; and once the cached status of a stub is non-OK, every Call
returns that same cached error without sending a request. -/
theorem socketClient_call_spec :
    (∀ u1 u2 r1 r2, (RPCOptions.default u1 u2 r1 r2).rpcTimeout = 5000000) ∧
    (∀ (c : SocketClient) (start : Nat) (es : List RecvEvent),
      c.status = .ok →
      (∀ e ∈ es, e.isCleanWait = true) →
      (∃ e ∈ es, c.rpcTimeout ≤ e.time - start) →
      c.call true start es =
        (true, some (Status.disconnected "timeout",
          { c with status := .disconnected "timeout" }))) ∧
    (∀ (c : SocketClient) (sendOk : Bool) (start : Nat) (es : List RecvEvent),
      c.status ≠ .ok →
      c.call sendOk start es = (false, some (c.status, c))) ∧
    (∀ (c : SocketClient) (sendOk : Bool) (start : Nat) (es : List RecvEvent)
        (s : Status) (c1 : SocketClient),
      (c.call sendOk start es).2 = some (s, c1) → s = c1.status) := by
  refine ⟨fun _ _ _ _ => rfl, ?_, ?_, ?_⟩
  · intro c start es hok hclean hto
    rw [SocketClient.call, if_neg (by simp [hok]), if_neg (by simp)]
    rw [callLoop_clean_timeout c start es hclean hto]
    rfl
  · intro c sendOk start es hne
    rw [SocketClient.call, if_pos hne]
  · intro c sendOk start es s c1 h
    rw [SocketClient.call] at h
    by_cases hne : c.status ≠ .ok
    · rw [if_pos hne] at h
      simp at h
      obtain ⟨h1, h2⟩ := h
      subst h2; exact h1.symm
    · rw [if_neg hne] at h
      by_cases hs : sendOk = false
      · rw [if_pos hs] at h
        simp at h
        obtain ⟨h1, h2⟩ := h
        subst h2; exact h1.symm
      · rw [if_neg hs] at h
        simp only at h
        cases hcl : c.callLoop start es with
        | none => rw [hcl] at h; simp at h
        | some c2 =>
          rw [hcl] at h; simp at h
          obtain ⟨h1, h2⟩ := h
          subst h2; exact h1.symm

/-- Witness for C3 at a concrete stub and event trace. -/
theorem socketClient_call_spec_witness :
    (RPCOptions.default 0 0 0 0).rpcTimeout = 5000000 ∧
    SocketClient.call ⟨.ok, 5000000⟩ true 0
        [RecvEvent.wouldBlock false 200000, RecvEvent.wouldBlock false 6000000] =
      (true, some (Status.disconnected "timeout", ⟨.disconnected "timeout", 5000000⟩)) ∧
    SocketClient.call ⟨.ioError "send", 5000000⟩ true 0 [RecvEvent.msg 8] =
      (false, some (Status.ioError "send", ⟨.ioError "send", 5000000⟩)) := by
  refine ⟨socketClient_call_spec.1 0 0 0 0, ?_, ?_⟩
  · exact socketClient_call_spec.2.1 ⟨.ok, 5000000⟩ 0 _ rfl (by decide)
      ⟨RecvEvent.wouldBlock false 6000000, by simp, by decide⟩
  · exact socketClient_call_spec.2.2.1 ⟨.ioError "send", 5000000⟩ true 0 _ (by decide)

/-- C4 counterexample: configuring udp_max_unexpected_msgsz and
udp_max_expected_msgsz to 9000 does not change the maximum message size
used by the server progressing threads or by a client stub; both remain
the hard-coded 1432. -/
theorem udp_msgsz_not_configurable :
    looperMaxMsgsz ⟨.socketRPC, .serverClient, 5000000, 1, 128, 9000, 9000, -1, -1⟩ = 1432 ∧
    clientMaxMsgsz ⟨.socketRPC, .serverClient, 5000000, 1, 128, 9000, 9000, -1, -1⟩ = 1432 ∧
    (1432 : Nat) ≠ 9000 := by
  exact ⟨rfl, rfl, by decide⟩

/-- C4 (amended): the default RPC transport moves messages as UDP
datagrams (SOCK_DGRAM sockets on both sides), and the maximum payload
size is fixed at 1432 bytes for every options value, the same limit
applying to messages received by the server progressing threads and to
replies received by a client stub; the udp_max_*_msgsz options are not
consulted. -/
theorem udp_transport_fixed_msgsz (o : RPCOptions) :
    socketRpcServerSockType o = .dgram ∧
    socketRpcClientSockType o = .dgram ∧
    looperMaxMsgsz o = 1432 ∧
    clientMaxMsgsz o = 1432 ∧
    looperMaxMsgsz o = clientMaxMsgsz o :=
  ⟨rfl, rfl, rfl, rfl, rfl⟩

/-! ## LevelDB option sanitization (C5)

Embedding of ClipToRange and SanitizeOptions from
src/external/pdlfs-common/src/leveldb/db/options.cc. The DBOptions
declaration itself (leveldb/options.h) is not part of the sources, so
the numeric fields are modelled as unbounded integers and the pointer
fields (comparator, filter_policy, info_log, caches) are elided. -/

/-- The DBOptions fields that SanitizeOptions touches, plus the two
compaction flags; remaining fields of the real struct pass through
SanitizeOptions unchanged and are elided. -/
structure DBOptions where
  writeBufferSize : Int
  blockSize : Int
  blockRestartInterval : Int
  indexBlockRestartInterval : Int
  disableCompaction : Bool
  disableSeekCompaction : Bool
  deriving DecidableEq, Repr

/-- ClipToRange from options.cc: clip the value against the maximum
first, then against the minimum. -/
def clipToRange (x lo hi : Int) : Int :=
  let x1 := if hi < x then hi else x
  if x1 < lo then lo else x1

/-- SanitizeOptions from options.cc, restricted to its effect on the
modelled fields: clip the four numeric options, then force
disable_seek_compaction whenever disable_compaction is set. The
info_log and cache creation side effects are elided. -/
def sanitizeOptions (src : DBOptions) : DBOptions :=
  let r := { src with
    blockRestartInterval := clipToRange src.blockRestartInterval 1 1024
    indexBlockRestartInterval := clipToRange src.indexBlockRestartInterval 1 1024
    writeBufferSize := clipToRange src.writeBufferSize 65536 1073741824
    blockSize := clipToRange src.blockSize 1024 4194304 }
  if r.disableCompaction then { r with disableSeekCompaction := true } else r

theorem clipToRange_mem (x lo hi : Int) (h : lo ≤ hi) :
    lo ≤ clipToRange x lo hi ∧ clipToRange x lo hi ≤ hi := by
  unfold clipToRange
  by_cases h1 : hi < x
  · rw [if_pos h1]
    by_cases h2 : hi < lo
    · omega
    · rw [if_neg h2]; omega
  · rw [if_neg h1]
    by_cases h2 : x < lo
    · rw [if_pos h2]; omega
    · rw [if_neg h2]; omega

theorem clipToRange_id (x lo hi : Int) (h1 : lo ≤ x) (h2 : x ≤ hi) :
    clipToRange x lo hi = x := by
  unfold clipToRange
  rw [if_neg (by omega), if_neg (by omega)]

/-- C5: SanitizeOptions clamps block_restart_interval and
index_block_restart_interval to [1, 1024], write_buffer_size to
[64 KiB, 1 GiB] and block_size to [1 KiB, 4 MiB]; values already in
range pass through unchanged; and if disable_compaction is set then
disable_seek_compaction is forced on. -/
theorem sanitizeOptions_spec (o : DBOptions) :
    (1 ≤ (sanitizeOptions o).blockRestartInterval ∧
      (sanitizeOptions o).blockRestartInterval ≤ 1024) ∧
    (1 ≤ (sanitizeOptions o).indexBlockRestartInterval ∧
      (sanitizeOptions o).indexBlockRestartInterval ≤ 1024) ∧
    (65536 ≤ (sanitizeOptions o).writeBufferSize ∧
      (sanitizeOptions o).writeBufferSize ≤ 1073741824) ∧
    (1024 ≤ (sanitizeOptions o).blockSize ∧
      (sanitizeOptions o).blockSize ≤ 4194304) ∧
    (1 ≤ o.blockRestartInterval → o.blockRestartInterval ≤ 1024 →
      (sanitizeOptions o).blockRestartInterval = o.blockRestartInterval) ∧
    (1 ≤ o.indexBlockRestartInterval → o.indexBlockRestartInterval ≤ 1024 →
      (sanitizeOptions o).indexBlockRestartInterval = o.indexBlockRestartInterval) ∧
    (65536 ≤ o.writeBufferSize → o.writeBufferSize ≤ 1073741824 →
      (sanitizeOptions o).writeBufferSize = o.writeBufferSize) ∧
    (1024 ≤ o.blockSize → o.blockSize ≤ 4194304 →
      (sanitizeOptions o).blockSize = o.blockSize) ∧
    (o.disableCompaction = true → (sanitizeOptions o).disableSeekCompaction = true) := by
  have hfields :
      (sanitizeOptions o).blockRestartInterval = clipToRange o.blockRestartInterval 1 1024 ∧
      (sanitizeOptions o).indexBlockRestartInterval
        = clipToRange o.indexBlockRestartInterval 1 1024 ∧
      (sanitizeOptions o).writeBufferSize = clipToRange o.writeBufferSize 65536 1073741824 ∧
      (sanitizeOptions o).blockSize = clipToRange o.blockSize 1024 4194304 := by
    unfold sanitizeOptions
    by_cases hd : o.disableCompaction <;> simp [hd]
  obtain ⟨h1, h2, h3, h4⟩ := hfields
  refine ⟨?_, ?_, ?_, ?_, ?_, ?_, ?_, ?_, ?_⟩
  · rw [h1]; exact clipToRange_mem _ _ _ (by norm_num)
  · rw [h2]; exact clipToRange_mem _ _ _ (by norm_num)
  · rw [h3]; exact clipToRange_mem _ _ _ (by norm_num)
  · rw [h4]; exact clipToRange_mem _ _ _ (by norm_num)
  · intro ha hb; rw [h1]; exact clipToRange_id _ _ _ ha hb
  · intro ha hb; rw [h2]; exact clipToRange_id _ _ _ ha hb
  · intro ha hb; rw [h3]; exact clipToRange_id _ _ _ ha hb
  · intro ha hb; rw [h4]; exact clipToRange_id _ _ _ ha hb
  · intro hd; unfold sanitizeOptions; simp [hd]

/-- Witness for C5 at a concrete out-of-range options value. -/
theorem sanitizeOptions_spec_witness :
    let o : DBOptions := ⟨4194304, 4096, 2000, 1, true, false⟩
    (1 ≤ (sanitizeOptions o).blockRestartInterval ∧
      (sanitizeOptions o).blockRestartInterval ≤ 1024) ∧
    (1024 ≤ o.blockSize → o.blockSize ≤ 4194304 →
      (sanitizeOptions o).blockSize = o.blockSize) ∧
    (o.disableCompaction = true → (sanitizeOptions o).disableSeekCompaction = true) := by
  have h := sanitizeOptions_spec ⟨4194304, 4096, 2000, 1, true, false⟩
  exact ⟨h.1, h.2.2.2.2.2.2.2.1, h.2.2.2.2.2.2.2.2⟩

/-! ## Read-only DB Get with a caller-supplied buffer (C6)

Embedding of ReadonlyDBImpl::Get(options, key, value, scratch,
scratch_size) from readonly_impl.cc (the second file of
src/external/pdlfs-common/src/leveldb/db/options.cc). The db::DirectBuf
class and Version::Get are not part of the sources and are modelled
from the spec. -/

/-- Modelled from the spec: a DirectBuf wraps a caller-supplied scratch
buffer of a given capacity; after the lookup copies a value into it,
Read() returns a null slice exactly when the value did not fit in the
scratch space. none models the null slice. -/
def directBufRead (capacity : Nat) (v : List Nat) : Option (List Nat) :=
  if v.length ≤ capacity then some v else none

/-- Modelled from the spec: the outcome of ReadonlyDBImpl::InternalGet,
searching the current version for the key at the read snapshot. The
store is abstracted as a partial map from keys to values; a hit is OK
and produces the stored bytes, a miss is NotFound. -/
def internalGet (db : Nat → Option (List Nat)) (k : Nat) : Status × Option (List Nat) :=
  match db k with
  | some v => (Status.ok, some v)
  | none => (Status.notFound "", none)

/-- ReadonlyDBImpl::Get with a caller-supplied scratch buffer, from
readonly_impl.cc: run InternalGet through a DirectBuf; on an OK status,
read the buffer, and if the resulting slice has null data, replace the
status with BufferFull. -/
def readonlyGet (db : Nat → Option (List Nat)) (k : Nat) (scratchSize : Nat) :
    Status × Option (List Nat) :=
  match internalGet db k with
  | (s, res) =>
    if s.isOK then
      match res with
      | some v =>
        match directBufRead scratchSize v with
        | some out => (s, some out)
        | none => (Status.bufferFull "", none)
      | none => (s, none)
    else (s, none)

/-- C6: a Get into a caller-supplied buffer returns BufferFull when the
stored value does not fit in the scratch buffer; the store is untouched
(Get is a pure read), and the same Get retried against the same store
with a sufficiently large buffer returns the stored value with an OK
status. -/
theorem readonlyGet_bufferFull (db : Nat → Option (List Nat)) (k : Nat)
    (v : List Nat) (small big : Nat) (hdb : db k = some v) :
    (small < v.length → readonlyGet db k small = (Status.bufferFull "", none)) ∧
    (v.length ≤ big → readonlyGet db k big = (Status.ok, some v)) := by
  constructor
  · intro hsmall
    unfold readonlyGet internalGet
    rw [hdb]
    simp [Status.isOK, directBufRead, Nat.not_le.mpr hsmall]
  · intro hbig
    unfold readonlyGet internalGet
    rw [hdb]
    simp [Status.isOK, directBufRead, hbig]

/-- Witness for C6: a two-byte value against a one-byte and then a
two-byte scratch buffer. -/
theorem readonlyGet_bufferFull_witness :
    readonlyGet (fun k => if k = 7 then some [3, 4] else none) 7 1
        = (Status.bufferFull "", none) ∧
    readonlyGet (fun k => if k = 7 then some [3, 4] else none) 7 2
        = (Status.ok, some [3, 4]) := by
  have h := readonlyGet_bufferFull (fun k => if k = 7 then some [3, 4] else none)
    7 [3, 4] 1 2 (by simp)
  exact ⟨h.1 (by decide), h.2 (by decide)⟩

/-! ## Read-only DB open and manifest replay (C7)

Embedding of ReadonlyDBImpl::Load and ReadonlyDB::Open from
readonly_impl.cc. The file-name helpers (filenames.h), the record log
reader and VersionEdit::DecodeFrom are not part of the sources; file
names are modelled from the spec (CURRENT, MANIFEST-n) and a manifest
file is modelled as the list of its records, each already resolved to a
decoded edit or a decode error. VersionSet::ForeighApply is modelled as
accumulating the applied edits in order. -/

/-- Modelled from the spec: DescriptorFileName, the name of manifest
file n inside the db directory. -/
def descriptorFileName (dbname : String) (n : Nat) : String :=
  dbname ++ "/MANIFEST-" ++ toString n

/-- Modelled from the spec: CurrentFileName, the CURRENT pointer file of
the db directory. -/
def currentFileName (dbname : String) : String :=
  dbname ++ "/CURRENT"

/-- The storage environment seen by ReadonlyDBImpl::Load: whether the
two fixed manifest names exist, the content of the CURRENT file (none
when ReadFileToString fails), and the record contents of every file
(none when NewSequentialFile fails). Records carry either a decoded
VersionEdit, abstracted as a number, or the decode error status. -/
structure ROEnv where
  man1Exists : Bool
  man2Exists : Bool
  currentContent : Option (List Char)
  files : String → Option (List (Except Status Nat))

/-- The manifest replay loop of ReadonlyDBImpl::Load: read records one
by one, decode each into a VersionEdit and apply it to the version set,
stopping at the first decode failure; the applied edits accumulate in
order. -/
def replayManifest : List (Except Status Nat) → List Nat → Status × List Nat
  | [], applied => (Status.ok, applied)
  | r :: rs, applied =>
    match r with
    | .ok e => replayManifest rs (applied ++ [e])
    | .error s => (s, applied)

/-- ReadonlyDBImpl::Load from readonly_impl.cc (first open, log_ still
null): pick MANIFEST-1 if it exists, else MANIFEST-2 if it exists, else
the name read from CURRENT provided the content is nonempty and ends
with a newline, stripping that newline; with no name, fail with
Corruption; otherwise open the file and replay its records. -/
def roLoad (dbname : String) (env : ROEnv) : Status × List Nat :=
  let fname : String :=
    if env.man1Exists then descriptorFileName dbname 1
    else if env.man2Exists then descriptorFileName dbname 2
    else
      match env.currentContent with
      | some cs =>
        if cs.getLast? = some '\n' then dbname ++ "/" ++ String.mk (cs.dropLast)
        else ""
      | none => ""
  if fname = "" then (Status.corruption dbname, [])
  else
    match env.files fname with
    | none => (Status.ioError "NewSequentialFile", [])
    | some recs => replayManifest recs []

/-- ReadonlyDB::Open from readonly_impl.cc: run Load; the db pointer is
set exactly when the resulting status is OK. -/
def roOpen (dbname : String) (env : ROEnv) : Status × Bool :=
  match roLoad dbname env with
  | (s, _) => (s, s.isOK)

theorem replayManifest_all_ok (recs : List (Except Status Nat)) (applied : List Nat)
    (h : ∀ r ∈ recs, ∃ e, r = .ok e) :
    replayManifest recs applied
      = (Status.ok, applied ++ recs.filterMap (fun r => r.toOption)) := by
  induction recs generalizing applied with
  | nil => simp [replayManifest]
  | cons r rs ih =>
    obtain ⟨e, he⟩ := h r (by simp)
    subst he
    rw [replayManifest]
    rw [ih (applied ++ [e]) (fun x hx => h x (by simp [hx]))]
    simp [Except.toOption]

/-- C7: when neither MANIFEST-1 nor MANIFEST-2 exists, Load takes the
manifest name from the newline-terminated line of the CURRENT file and
replays every VersionEdit record of that manifest in order; and when no
valid manifest can be located (CURRENT unreadable, empty, or lacking
the trailing newline), Load returns a Corruption status and the db is
not opened. -/
theorem roLoad_spec (dbname : String) (env : ROEnv) (line : List Char)
    (recs : List (Except Status Nat)) :
    (env.man1Exists = false → env.man2Exists = false →
      env.currentContent = some (line ++ ['\n']) →
      env.files (dbname ++ "/" ++ String.mk line) = some recs →
      (∀ r ∈ recs, ∃ e, r = .ok e) →
      roLoad dbname env = (Status.ok, recs.filterMap (fun r => r.toOption))) ∧
    (env.man1Exists = false → env.man2Exists = false →
      (env.currentContent = none ∨
        env.currentContent = some [] ∨
        (∃ cs, env.currentContent = some cs ∧ cs ≠ [] ∧ cs.getLast? ≠ some '\n')) →
      roLoad dbname env = (Status.corruption dbname, []) ∧
      roOpen dbname env = (Status.corruption dbname, false)) := by
  constructor
  · intro h1 h2 hc hf hrecs
    have hne : dbname ++ "/" ++ String.mk (line ++ ['\n']).dropLast ≠ "" := by
      intro hcontra
      have hlen := congrArg String.length hcontra
      rw [String.length_append, String.length_append] at hlen
      have hslash : ("/" : String).length = 1 := rfl
      have hnil : ("" : String).length = 0 := rfl
      omega
    unfold roLoad
    rw [h1, h2, hc]
    simp only [Bool.false_eq_true, if_false, List.getLast?_concat,
      eq_self_iff_true, if_true]
    rw [if_neg hne]
    rw [List.dropLast_concat] at hne ⊢
    rw [hf]
    exact replayManifest_all_ok recs [] hrecs
  · intro h1 h2 hbad
    have hload : roLoad dbname env = (Status.corruption dbname, []) := by
      unfold roLoad
      rw [h1, h2]
      simp only [Bool.false_eq_true, if_false]
      rcases hbad with hb | hb | ⟨cs, hb, hcs, hlast⟩
      · rw [hb]
        simp
      · rw [hb]
        simp
      · rw [hb]
        simp only [if_neg hlast, eq_self_iff_true, if_true]
    refine ⟨hload, ?_⟩
    unfold roOpen
    rw [hload]
    rfl

/-- Witness for C7: a CURRENT file naming a two-record manifest, and a
CURRENT file missing its trailing newline. -/
theorem roLoad_spec_witness :
    (roLoad "db"
      { man1Exists := false
        man2Exists := false
        currentContent := some ("MANIFEST-9\n".data)
        files := fun f => if f = "db/MANIFEST-9" then some [.ok 5, .ok 6] else none }
      = (Status.ok, [5, 6])) ∧
    (roLoad "db"
      { man1Exists := false
        man2Exists := false
        currentContent := some ("MANIFEST-9".data)
        files := fun _ => none }
      = (Status.corruption "db", [])) := by
  constructor
  · have h := (roLoad_spec "db"
      { man1Exists := false
        man2Exists := false
        currentContent := some ("MANIFEST-9\n".data)
        files := fun f => if f = "db/MANIFEST-9" then some [.ok 5, .ok 6] else none }
      ("MANIFEST-9".data) [.ok 5, .ok 6]).1 rfl rfl (by decide) (by rfl) (by
        intro r hr
        rw [List.mem_cons] at hr
        rcases hr with he | hr
        · exact ⟨5, he⟩
        · rw [List.mem_cons] at hr
          rcases hr with he | hr
          · exact ⟨6, he⟩
          · simp at hr)
    rw [h]
    rfl
  · exact ((roLoad_spec "db"
      { man1Exists := false
        man2Exists := false
        currentContent := some ("MANIFEST-9".data)
        files := fun _ => none }
      [] []).2 rfl rfl (Or.inr (Or.inr ⟨"MANIFEST-9".data, rfl, by decide, by decide⟩))).1

/-! ## Lookup lease coherence (C8)

The lease states and record come from
include/pdlfs-common/lease.h (enum LeaseState, struct Lease with due
and state). The lookup and writer logic itself is not part of the
sources; it is modelled from the spec and from the comments of
lease.h: a Locked lease must not have its expiration extended by
lookups, and the pending write must wait until the lease expires
before applying and publishing its changes. -/

/-- LeaseState from lease.h: kLeaseFree, kLeaseShared, kLeaseLocked. -/
inductive LeaseState where
  | free
  | shared
  | locked
  deriving DecidableEq, Repr

/-- LeaseOptions from lease.h: the maximum lease duration and the
capacity of the table (the capacity plays no role here). -/
structure LeaseOptions where
  maxLeaseDuration : Nat
  maxNumLeases : Nat
  deriving DecidableEq, Repr

/-- One lease record: its coherence state, its absolute expiration time
due, and the published lookup payload, abstracted as a number. -/
structure LeaseRec where
  state : LeaseState
  due : Nat
  payload : Nat
  deriving DecidableEq, Repr

/-- The events driving one lease. -/
inductive LeaseEvent where
  | lookup (now : Nat)
  | acquire (now : Nat)
  | commit (now : Nat) (v : Nat)
  | abortWrite (now : Nat)
  deriving DecidableEq, Repr

/-- Modelled from the spec: the per-lease transition function of the
lookup lease table. A lookup on a Shared unexpired lease extends due; a
lookup on an expired Shared lease degrades it to Free; a lookup on a
Free lease refills it as Shared; a lookup on a Locked lease answers
without touching the lease. A writer acquires from Free or Shared,
freezing due. A commit is only enabled on a Locked lease once now has
reached the frozen due, publishing the new payload; an abort restores
Shared with the old payload. none marks a disabled transition. -/
def leaseStep (o : LeaseOptions) (l : LeaseRec) : LeaseEvent → Option LeaseRec
  | .lookup now =>
    match l.state with
    | .shared =>
      if now < l.due then some { l with due := now + o.maxLeaseDuration }
      else some { l with state := .free }
    | .free => some { l with state := .shared, due := now + o.maxLeaseDuration }
    | .locked => some l
  | .acquire _ =>
    match l.state with
    | .locked => none
    | _ => some { l with state := .locked }
  | .commit now v =>
    match l.state with
    | .locked =>
      if l.due ≤ now then
        some { l with state := .shared, due := now + o.maxLeaseDuration, payload := v }
      else none
    | _ => none
  | .abortWrite _ =>
    match l.state with
    | .locked => some { l with state := .shared }
    | _ => none

/-- Run a lease through a list of events; none propagates. -/
def leaseRun (o : LeaseOptions) (l : LeaseRec) : List LeaseEvent → Option LeaseRec
  | [] => some l
  | e :: es =>
    match leaseStep o l e with
    | some l1 => leaseRun o l1 es
    | none => none

/-- C8: on a Locked lease, a lookup never extends the frozen due (the
lease is returned untouched); any step that keeps the lease Locked
keeps due unchanged; a commit is only possible from the Locked state
once now has reached the frozen due; and along any run without aborts
that starts Locked, a payload change requires some commit event whose
time has reached the due frozen at the start of the run. -/
theorem lease_locked_frozen_due (o : LeaseOptions) :
    (∀ (l : LeaseRec) (now : Nat), l.state = .locked →
      leaseStep o l (.lookup now) = some l) ∧
    (∀ (l l1 : LeaseRec) (e : LeaseEvent),
      leaseStep o l e = some l1 → l.state = .locked → l1.state = .locked →
      l1.due = l.due) ∧
    (∀ (l l1 : LeaseRec) (now v : Nat),
      leaseStep o l (.commit now v) = some l1 →
      l.state = .locked ∧ l.due ≤ now) ∧
    (∀ (es : List LeaseEvent) (l l1 : LeaseRec),
      l.state = .locked → leaseRun o l es = some l1 →
      (∀ e ∈ es, ∀ n, e ≠ .abortWrite n) →
      l1.payload ≠ l.payload →
      ∃ n v, LeaseEvent.commit n v ∈ es ∧ l.due ≤ n) := by
  refine ⟨?_, ?_, ?_, ?_⟩
  · intro l now hl
    simp [leaseStep, hl]
  · intro l l1 e h hl hl1
    cases e with
    | lookup now =>
      simp [leaseStep, hl] at h
      rw [← h]
    | acquire now =>
      simp [leaseStep, hl] at h
    | commit now v =>
      simp only [leaseStep, hl] at h
      by_cases hd : l.due ≤ now
      · rw [if_pos hd] at h
        simp at h
        rw [← h] at hl1
        simp at hl1
      · rw [if_neg hd] at h
        simp at h
    | abortWrite now =>
      simp [leaseStep, hl] at h
      rw [← h] at hl1
      simp at hl1
  · intro l l1 now v h
    cases hl : l.state with
    | free => simp [leaseStep, hl] at h
    | shared => simp [leaseStep, hl] at h
    | locked =>
      refine ⟨rfl, ?_⟩
      simp only [leaseStep, hl] at h
      by_cases hd : l.due ≤ now
      · exact hd
      · rw [if_neg hd] at h
        simp at h
  · intro es
    induction es with
    | nil =>
      intro l l1 hl h hab hpay
      simp [leaseRun] at h
      rw [h] at hpay
      exact absurd rfl hpay
    | cons e es ih =>
      intro l l1 hl h hab hpay
      rw [leaseRun] at h
      cases e with
      | lookup now =>
        rw [show leaseStep o l (.lookup now) = some l by simp [leaseStep, hl]] at h
        obtain ⟨n, v, hmem, hd⟩ := ih l l1 hl h (fun x hx => hab x (by simp [hx])) hpay
        exact ⟨n, v, by simp [hmem], hd⟩
      | acquire now =>
        rw [show leaseStep o l (.acquire now) = none by simp [leaseStep, hl]] at h
        simp at h
      | commit now v =>
        simp only [leaseStep, hl] at h
        by_cases hd : l.due ≤ now
        · exact ⟨now, v, by simp, hd⟩
        · rw [if_neg hd] at h
          simp at h
      | abortWrite now =>
        exact absurd rfl (hab (.abortWrite now) (by simp) now)

/-- Witness for C8 at a concrete locked lease and event trace. -/
theorem lease_locked_frozen_due_witness :
    let o : LeaseOptions := ⟨10, 4096⟩
    let l : LeaseRec := ⟨.locked, 100, 0⟩
    leaseStep o l (.lookup 99) = some l ∧
    (leaseStep o l (.commit 99 1)).isNone = true ∧
    (∃ n v, LeaseEvent.commit n v ∈
        [LeaseEvent.lookup 99, LeaseEvent.commit 100 1] ∧ l.due ≤ n) := by
  intro o l
  refine ⟨(lease_locked_frozen_due o).1 l 99 rfl, by decide, ?_⟩
  exact (lease_locked_frozen_due o).2.2.2
    [LeaseEvent.lookup 99, LeaseEvent.commit 100 1] l ⟨.shared, 110, 1⟩ rfl
    (by decide)
    (by
      intro e he n
      rw [List.mem_cons] at he
      rcases he with h | he
      · subst h; simp
      · rw [List.mem_cons] at he
        rcases he with h | he
        · subst h; simp
        · simp at he)
    (by decide)

/-! ## Sign-interleave codec (C9)

Embedding of sign_interleave::encode and sign_interleave::decode from
src/external/pdlfs-common/src/ectrie/sign_interleave.h, for an
arbitrary integer type T of w bits. A value of T is represented by its
bit pattern, a natural number below 2 ^ w; the C++ bit operations are
rendered arithmetically at width w. -/

namespace SignInterleave

/-- The bitwise complement of a w-bit pattern. -/
def wnot (w v : Nat) : Nat := 2 ^ w - 1 - v

/-- Left shift by one of a w-bit pattern, discarding the carry. -/
def wshl (w v : Nat) : Nat := 2 * v % 2 ^ w

/-- Arithmetic right shift by one of a w-bit pattern: the vacated top
bit is filled with the sign bit, as the C++ shift does on a signed T.
When T is unsigned the fill bit is cleared or set again by the mask or
the bitwise-or that follows every shift in decode, so the two shift
semantics agree there. -/
def wshr (w v : Nat) : Nat := v / 2 + (if 2 ^ (w - 1) ≤ v then 2 ^ (w - 1) else 0)

/-- Clearing the top bit of a w-bit pattern, the mask
(v and not (1 shl (w-1))) of the C++ code. -/
def clearTop (w v : Nat) : Nat := v % 2 ^ (w - 1)

/-- Setting the top bit of a w-bit pattern, the (v or (1 shl (w-1)))
of the C++ code. -/
def setTop (w v : Nat) : Nat := v % 2 ^ (w - 1) + 2 ^ (w - 1)

/-- sign_interleave::encode: when the sign bit of v is clear, shift
left by one; otherwise shift the complement left by one and set the low
bit, which adds one to the even shift result. -/
def encode (w v : Nat) : Nat :=
  if v < 2 ^ (w - 1) then wshl w v
  else wshl w (wnot w v) + 1

/-- sign_interleave::decode: on an even value, shift right by one and
clear the top bit; on an odd value, shift right by one, complement, and
set the top bit. -/
def decode (w v : Nat) : Nat :=
  if v % 2 = 0 then clearTop w (wshr w v)
  else setTop w (wnot w (wshr w v))

/-- The two's-complement value of a w-bit pattern. -/
def toInt (w p : Nat) : Int :=
  if p < 2 ^ (w - 1) then (p : Int) else (p : Int) - 2 ^ w

/-- The w-bit pattern of an integer, reduced modulo 2 ^ w. -/
def ofInt (w : Nat) (v : Int) : Nat := (v % (2 ^ w : Int)).toNat

theorem decode_encode (w : Nat) (hw : 1 ≤ w) (p : Nat) (hp : p < 2 ^ w) :
    decode w (encode w p) = p := by
  have h2 : 2 ^ w = 2 * 2 ^ (w - 1) := by
    conv_lhs => rw [show w = w - 1 + 1 by omega]
    rw [pow_succ]
    ring
  have hPpos : 0 < 2 ^ (w - 1) := pow_pos (by norm_num) _
  by_cases hcase : p < 2 ^ (w - 1)
  · -- sign bit clear: encode gives 2 p
    have henc : encode w p = 2 * p := by
      rw [encode, if_pos hcase, wshl, Nat.mod_eq_of_lt (by omega)]
    have hdiv : 2 * p / 2 = p := by omega
    rw [henc, decode, if_pos (by omega), clearTop, wshr, hdiv]
    by_cases hbit : 2 ^ (w - 1) ≤ 2 * p
    · rw [if_pos hbit, Nat.add_mod_right, Nat.mod_eq_of_lt hcase]
    · rw [if_neg hbit, Nat.add_zero, Nat.mod_eq_of_lt hcase]
  · -- sign bit set: encode gives 2 (2^w - 1 - p) + 1
    have henc : encode w p = 2 * (2 ^ w - 1 - p) + 1 := by
      rw [encode, if_neg hcase, wshl, wnot, Nat.mod_eq_of_lt (by omega)]
    have hdiv : (2 * (2 ^ w - 1 - p) + 1) / 2 = 2 ^ w - 1 - p := by omega
    rw [henc, decode, if_neg (by omega), setTop, wnot, wshr, hdiv]
    by_cases hbit : 2 ^ (w - 1) ≤ 2 * (2 ^ w - 1 - p) + 1
    · rw [if_pos hbit]
      have hx : 2 ^ w - 1 - (2 ^ w - 1 - p + 2 ^ (w - 1))
          = 2 ^ (w - 1) - 1 - (2 ^ w - 1 - p) := by omega
      rw [hx, Nat.mod_eq_of_lt (by omega)]
      omega
    · rw [if_neg hbit]
      have hx : 2 ^ w - 1 - (2 ^ w - 1 - p + 0)
          = 2 ^ (w - 1) + (2 ^ (w - 1) - 1 - (2 ^ w - 1 - p)) := by omega
      rw [hx, Nat.add_mod_left, Nat.mod_eq_of_lt (by omega)]
      omega

theorem encode_nonneg (w : Nat) (hw : 1 ≤ w) (v : Int) (h0 : 0 ≤ v)
    (h1 : v < 2 ^ (w - 1)) : (encode w (ofInt w v) : Int) = 2 * v % 2 ^ w := by
  have hcast : ((2 ^ (w - 1) : Nat) : Int) = (2 : Int) ^ (w - 1) := by
    push_cast
    rfl
  have hcastw : ((2 ^ w : Nat) : Int) = (2 : Int) ^ w := by
    push_cast
    rfl
  have h2 : (2 : Nat) ^ w = 2 * 2 ^ (w - 1) := by
    conv_lhs => rw [show w = w - 1 + 1 by omega]
    rw [pow_succ]
    ring
  have hof : ofInt w v = v.toNat := by
    rw [ofInt, Int.emod_eq_of_lt h0 (by omega)]
  have hlt : v.toNat < 2 ^ (w - 1) := by omega
  rw [hof, encode, if_pos hlt, wshl, Nat.mod_eq_of_lt (by omega)]
  rw [Int.emod_eq_of_lt (by omega) (by omega)]
  omega

theorem encode_neg (w : Nat) (hw : 1 ≤ w) (v : Int) (h0 : v < 0)
    (h1 : -(2 ^ (w - 1)) ≤ v) : (encode w (ofInt w v) : Int) = 2 * (-v) - 1 := by
  have hcast : ((2 ^ (w - 1) : Nat) : Int) = (2 : Int) ^ (w - 1) := by
    push_cast
    rfl
  have hcastw : ((2 ^ w : Nat) : Int) = (2 : Int) ^ w := by
    push_cast
    rfl
  have h2 : (2 : Nat) ^ w = 2 * 2 ^ (w - 1) := by
    conv_lhs => rw [show w = w - 1 + 1 by omega]
    rw [pow_succ]
    ring
  have h2i : (2 : Int) ^ w = 2 * 2 ^ (w - 1) := by
    conv_lhs => rw [show w = w - 1 + 1 by omega]
    rw [pow_succ]
    ring
  have hof : (ofInt w v : Int) = v + 2 ^ w := by
    rw [ofInt]
    have hmod : v % (2 ^ w : Int) = v + 2 ^ w := by
      have ha : v % (2 ^ w : Int) = (v + 2 ^ w) % 2 ^ w := by
        conv_lhs => rw [show v = (v + 2 ^ w) + (-1) * 2 ^ w by ring]
        rw [Int.add_mul_emod_self]
      rw [ha]
      exact Int.emod_eq_of_lt (by omega) (by omega)
    rw [hmod, Int.toNat_of_nonneg (by omega)]
  have hge : 2 ^ (w - 1) ≤ ofInt w v := by omega
  have hltw : ofInt w v < 2 ^ w := by omega
  rw [encode, if_neg (by omega), wshl, wnot, Nat.mod_eq_of_lt (by omega)]
  omega

/-- C9: for every bit width w of at least one bit and every w-bit value
v, sign_interleave::decode inverts sign_interleave::encode, and, read
as two's-complement integers modulo 2 ^ w, encode maps every
non-negative v to 2 v and every negative v to 2 (-v) - 1. -/
theorem sign_interleave_roundtrip (w : Nat) (hw : 1 ≤ w) :
    (∀ p : Nat, p < 2 ^ w → decode w (encode w p) = p) ∧
    (∀ v : Int, 0 ≤ v → v < 2 ^ (w - 1) →
      (encode w (ofInt w v) : Int) = 2 * v % 2 ^ w) ∧
    (∀ v : Int, v < 0 → -(2 ^ (w - 1)) ≤ v →
      (encode w (ofInt w v) : Int) = 2 * (-v) - 1) :=
  ⟨fun p hp => decode_encode w hw p hp,
   fun v h0 h1 => encode_nonneg w hw v h0 h1,
   fun v h0 h1 => encode_neg w hw v h0 h1⟩

/-- Witness for C9 at width 8, on the patterns of 5 and -3. -/
theorem sign_interleave_roundtrip_witness :
    (decode 8 (encode 8 5) = 5 ∧ decode 8 (encode 8 253) = 253) ∧
    (encode 8 (ofInt 8 5) : Int) = 10 ∧
    (encode 8 (ofInt 8 (-3)) : Int) = 5 := by
  have h := sign_interleave_roundtrip 8 (by norm_num)
  refine ⟨⟨h.1 5 (by norm_num), h.1 253 (by norm_num)⟩, ?_, ?_⟩
  · have := h.2.1 5 (by norm_num) (by norm_num)
    rw [this]
    decide
  · have := h.2.2 (-3) (by norm_num) (by norm_num)
    rw [this]
    decide

end SignInterleave

/-! ## Min-max buffered writable file (C10)

Embedding of MinMaxBufferedWritableFile from
include/pdlfs-common/env_files.h. The underlying base WritableFile is
modelled as an infallible byte sink, matching the claim, which is about
runs in which every operation returns OK; the bytes delivered to the
base are accumulated in the state. File content bytes are numbers. -/

/-- The state of a MinMaxBufferedWritableFile: the bytes delivered to
the base file so far, the flushed-byte counter offset_, the in-memory
buffer buf_, and the two size bounds. -/
structure BufFile where
  base : List Nat
  offset : Nat
  buf : List Nat
  minBuf : Nat
  maxBuf : Nat
  deriving DecidableEq, Repr

/-- MinMaxBufferedWritableFile::EmptyBuffer: when the buffer is
nonempty, append it to the base file, advance offset_ by its size and
clear it. -/
def BufFile.emptyBuffer (f : BufFile) : BufFile :=
  if f.buf = [] then f
  else { f with base := f.base ++ f.buf, offset := f.offset + f.buf.length, buf := [] }

/-- The while loop of MinMaxBufferedWritableFile::Append: while the
buffer plus the remaining chunk reach max_buf_size_, fill the buffer up
to exactly max_buf_size_ from the chunk, flush it, and drop the
consumed prefix from the chunk. The loop runs on fuel and returns the
state paired with the remaining chunk; none models non-termination. -/
def BufFile.appendLoop (f : BufFile) (chunk : List Nat) : Nat → Option (BufFile × List Nat)
  | 0 => none
  | fuel + 1 =>
    if f.maxBuf ≤ f.buf.length + chunk.length then
      let left := f.maxBuf - f.buf.length
      let f1 := { f with buf := f.buf ++ chunk.take left }
      BufFile.appendLoop f1.emptyBuffer (chunk.drop left) fuel
    else some (f, chunk)

/-- MinMaxBufferedWritableFile::Append: run the flush loop, append the
remaining chunk to the buffer, and flush once more if the buffer has
reached min_buf_size_. -/
def BufFile.append (f : BufFile) (data : List Nat) : Option BufFile :=
  match f.appendLoop data (data.length + 1) with
  | none => none
  | some (f1, rest) =>
    let f2 := { f1 with buf := f1.buf ++ rest }
    some (if f2.minBuf ≤ f2.buf.length then f2.emptyBuffer else f2)

/-- MinMaxBufferedWritableFile::Flush: ignored. -/
def BufFile.flushOp (f : BufFile) : BufFile := f

/-- MinMaxBufferedWritableFile::Sync: empty the buffer, then sync the
base file (a non-op on the modelled sink). -/
def BufFile.sync (f : BufFile) : BufFile := f.emptyBuffer

/-- MinMaxBufferedWritableFile::SyncBefore(offset): a non-op when
offset_ already reaches the requested offset, otherwise empty the
buffer. -/
def BufFile.syncBefore (f : BufFile) (off : Nat) : BufFile :=
  if off ≤ f.offset then f else f.emptyBuffer

/-- MinMaxBufferedWritableFile::Close: empty the buffer, then close the
base file (a non-op on the modelled sink). -/
def BufFile.close (f : BufFile) : BufFile := f.emptyBuffer

/-- The bytes a reader of the base file will eventually see: what was
delivered, followed by what is still buffered. -/
def BufFile.content (f : BufFile) : List Nat := f.base ++ f.buf

/-- A fresh MinMaxBufferedWritableFile over an empty base. -/
def BufFile.mk0 (minB maxB : Nat) : BufFile :=
  { base := [], offset := 0, buf := [], minBuf := minB, maxBuf := maxB }

/-- Fold a sequence of Append calls. -/
def BufFile.runAppends (f : BufFile) : List (List Nat) → Option BufFile
  | [] => some f
  | d :: ds =>
    match f.append d with
    | some f1 => f1.runAppends ds
    | none => none

theorem emptyBuffer_content (f : BufFile) :
    f.emptyBuffer.content = f.content ∧ f.emptyBuffer.buf = [] ∧
    f.emptyBuffer.minBuf = f.minBuf ∧ f.emptyBuffer.maxBuf = f.maxBuf := by
  unfold BufFile.emptyBuffer BufFile.content
  by_cases h : f.buf = []
  · rw [if_pos h]
    exact ⟨rfl, h, rfl, rfl⟩
  · rw [if_neg h]
    simp

theorem appendLoop_spec (fuel : Nat) :
    ∀ (f : BufFile) (chunk : List Nat),
    f.buf.length < f.maxBuf →
    chunk.length + 1 ≤ fuel →
    ∃ f1 rest, f.appendLoop chunk fuel = some (f1, rest) ∧
      f1.content ++ rest = f.content ++ chunk ∧
      f1.buf.length + rest.length < f.maxBuf ∧
      f1.minBuf = f.minBuf ∧ f1.maxBuf = f.maxBuf := by
  induction fuel with
  | zero =>
    intro f chunk hbuf hfuel
    omega
  | succ fuel ih =>
    intro f chunk hbuf hfuel
    rw [BufFile.appendLoop]
    by_cases hcond : f.maxBuf ≤ f.buf.length + chunk.length
    · rw [if_pos hcond]
      have hleft : f.maxBuf - f.buf.length ≤ chunk.length := by omega
      have hfull : ({ f with buf := f.buf ++ chunk.take (f.maxBuf - f.buf.length) }
          : BufFile).buf.length = f.maxBuf := by
        simp [List.length_take]
        omega
      have hnonempty : ({ f with buf := f.buf ++ chunk.take (f.maxBuf - f.buf.length) }
          : BufFile).buf ≠ [] := by
        intro hc
        have := congrArg List.length hc
        rw [hfull] at this
        simp at this
        omega
      set f1 : BufFile := { f with buf := f.buf ++ chunk.take (f.maxBuf - f.buf.length) }
        with hf1
      have hemp : f1.emptyBuffer
          = { f1 with base := f1.base ++ f1.buf,
                      offset := f1.offset + f1.buf.length, buf := [] } := by
        rw [BufFile.emptyBuffer, if_neg hnonempty]
      have hrec := ih f1.emptyBuffer (chunk.drop (f.maxBuf - f.buf.length))
        (by rw [hemp]; simpa using by omega)
        (by
          rw [List.length_drop]
          omega)
      obtain ⟨f2, rest, hrun, hcont, hlen, hmin, hmax⟩ := hrec
      refine ⟨f2, rest, hrun, ?_, ?_, ?_, ?_⟩
      · rw [hcont, hemp]
        show (f1.base ++ f1.buf) ++ ([] : List Nat) ++ chunk.drop (f.maxBuf - f.buf.length)
            = f.content ++ chunk
        rw [hf1]
        show (f.base ++ (f.buf ++ chunk.take (f.maxBuf - f.buf.length))) ++ []
            ++ chunk.drop (f.maxBuf - f.buf.length) = f.content ++ chunk
        rw [BufFile.content]
        simp [List.take_append_drop]
      · rw [hemp] at hlen
        simpa using hlen
      · rw [hemp] at hmin
        simpa using hmin
      · rw [hemp] at hmax
        simpa using hmax
    · rw [if_neg hcond]
      exact ⟨f, chunk, rfl, rfl, by omega, rfl, rfl⟩

theorem append_spec (f : BufFile) (data : List Nat)
    (hbuf : f.buf.length < f.maxBuf) :
    ∃ f1, f.append data = some f1 ∧
      f1.content = f.content ++ data ∧
      f1.buf.length < f.maxBuf ∧
      f1.minBuf = f.minBuf ∧ f1.maxBuf = f.maxBuf := by
  obtain ⟨f1, rest, hrun, hcont, hlen, hmin, hmax⟩ :=
    appendLoop_spec (data.length + 1) f data hbuf (by omega)
  rw [BufFile.append, hrun]
  dsimp only
  set f2 : BufFile := { f1 with buf := f1.buf ++ rest } with hf2
  have hcont2 : f2.content = f.content ++ data := by
    rw [hf2, BufFile.content]
    show f1.base ++ (f1.buf ++ rest) = f.content ++ data
    rw [← List.append_assoc]
    exact hcont
  have hlen2 : f2.buf.length < f.maxBuf := by
    rw [hf2]
    simp
    omega
  by_cases hmin2 : f2.minBuf ≤ f2.buf.length
  · rw [if_pos hmin2]
    obtain ⟨he1, he2, he3, he4⟩ := emptyBuffer_content f2
    refine ⟨f2.emptyBuffer, rfl, by rw [he1, hcont2], ?_, ?_, ?_⟩
    · rw [he2]
      simpa using by omega
    · rw [he3, hf2]
      exact hmin
    · rw [he4, hf2]
      exact hmax
  · rw [if_neg hmin2]
    exact ⟨f2, rfl, hcont2, hlen2, by rw [hf2]; exact hmin, by rw [hf2]; exact hmax⟩

theorem runAppends_spec (datas : List (List Nat)) :
    ∀ (f : BufFile), f.buf.length < f.maxBuf →
    ∃ f1, f.runAppends datas = some f1 ∧
      f1.content = f.content ++ datas.flatten ∧
      f1.buf.length < f.maxBuf ∧
      f1.minBuf = f.minBuf ∧ f1.maxBuf = f.maxBuf := by
  induction datas with
  | nil =>
    intro f hbuf
    exact ⟨f, rfl, by simp [BufFile.runAppends], hbuf, rfl, rfl⟩
  | cons d ds ih =>
    intro f hbuf
    obtain ⟨f1, happ, hcont, hlen, hmin, hmax⟩ := append_spec f d hbuf
    obtain ⟨f2, hrun, hcont2, hlen2, hmin2, hmax2⟩ := ih f1 (by omega)
    rw [BufFile.runAppends, happ]
    refine ⟨f2, hrun, ?_, by omega, by rw [hmin2, hmin], by rw [hmax2, hmax]⟩
    rw [hcont2, hcont]
    simp [List.flatten]

/-- C10: for every sequence of Append calls on a fresh
MinMaxBufferedWritableFile that all return OK, the bytes delivered to
the base file followed by the current buffer contents equal the
concatenation of all appended data, and the buffer length stays below
max_buf_size; the content identity and the buffer bound are further
preserved by Flush, Sync, SyncBefore, EmptyBuffer and Close. -/
theorem minMaxBufferedFile_invariant (minB maxB : Nat) (datas : List (List Nat))
    (hm : 0 < maxB) :
    (∃ f1, (BufFile.mk0 minB maxB).runAppends datas = some f1 ∧
      f1.base ++ f1.buf = datas.flatten ∧ f1.buf.length ≤ maxB) ∧
    (∀ f : BufFile,
      f.flushOp.content = f.content ∧ f.flushOp.buf.length ≤ f.buf.length ∧
      f.sync.content = f.content ∧ f.sync.buf.length ≤ f.buf.length ∧
      (∀ off, (f.syncBefore off).content = f.content ∧
        (f.syncBefore off).buf.length ≤ f.buf.length) ∧
      f.emptyBuffer.content = f.content ∧ f.emptyBuffer.buf.length ≤ f.buf.length ∧
      f.close.content = f.content ∧ f.close.buf.length ≤ f.buf.length) := by
  constructor
  · obtain ⟨f1, hrun, hcont, hlen, hmin, hmax⟩ :=
      runAppends_spec datas (BufFile.mk0 minB maxB) (by simp [BufFile.mk0, hm])
    simp only [BufFile.mk0] at hlen hmax
    refine ⟨f1, hrun, ?_, by omega⟩
    have : f1.content = datas.flatten := by
      rw [hcont]
      simp [BufFile.mk0, BufFile.content]
    rw [BufFile.content] at this
    exact this
  · intro f
    obtain ⟨he1, he2, _, _⟩ := emptyBuffer_content f
    have hle : f.emptyBuffer.buf.length ≤ f.buf.length := by rw [he2]; simp
    refine ⟨rfl, le_refl _, he1, hle, ?_, he1, hle, he1, hle⟩
    intro off
    rw [BufFile.syncBefore]
    by_cases hoff : off ≤ f.offset
    · rw [if_pos hoff]
      exact ⟨rfl, le_refl _⟩
    · rw [if_neg hoff]
      exact ⟨he1, hle⟩

/-- Witness for C10: three appends against a buffer of capacity 4. -/
theorem minMaxBufferedFile_invariant_witness :
    ∃ f1, (BufFile.mk0 2 4).runAppends [[1, 2, 3], [4], [5, 6, 7, 8, 9]] = some f1 ∧
      f1.base ++ f1.buf = [1, 2, 3, 4, 5, 6, 7, 8, 9] ∧ f1.buf.length ≤ 4 := by
  have h := (minMaxBufferedFile_invariant 2 4 [[1, 2, 3], [4], [5, 6, 7, 8, 9]]
    (by norm_num)).1
  simpa [List.flatten] using h

end Pdlfs
